import Mathlib

/-!
github-ssh-keys: a verification development over `main.go`.

The program lists the teams of a GitHub organisation, the members of each
selected team and the public SSH keys of each member, and writes them to an
`authorized_keys` file.

Modelling conventions.

* Go `string` values are Lean `String`s.  All byte-level operations the
  program performs (comparison, concatenation, splitting on the ASCII comma)
  act on valid UTF-8 text exactly as the corresponding character-level
  operations.
* The pointer fields of the API records (`*team.Name`, `*team.ID`,
  `*member.Login`, `*key.Key`) are modelled as plain fields: the records the
  service returns always carry them.
* The remote service is a parameter: a `GithubClient` gives, for each request,
  the pair `(items, err)` that the call returns.
* Everything the program does to the outside world (API requests, printing,
  the file write) is recorded, in order, in a trace of `Event`s that is
  threaded through the functions.
-/

namespace GithubSshKeys

/-! ## Library functions used by the program -/

/-- Decimal rendering of a non-negative integer, the `%d` verb of `fmt.Sprintf`. -/
def formatInt (n : Nat) : String := Nat.repr n

/-- Splitting a sequence of characters at every occurrence of `sep`. -/
def splitChars (sep : Char) : List Char → List (List Char)
  | [] => [[]]
  | c :: cs =>
    if c = sep then [] :: splitChars sep cs
    else
      match splitChars sep cs with
      | [] => [[c]]
      | seg :: segs => (c :: seg) :: segs

/-- Model of `strings.Split(s, ",")`. -/
def stringsSplitComma (s : String) : List String :=
  (splitChars ',' s.data).map String.mk

/-! ## Data model -/

/-- Struct `githubUser`: a github user with a list of SSH public keys. -/
structure githubUser where
  name : String
  keys : List String
deriving DecidableEq, Repr

/-- Method `hasKeys`: `len(gu.keys) > 0`. -/
def githubUser.hasKeys (gu : githubUser) : Bool :=
  decide (gu.keys.length > 0)

/-- The comment part `%s-%d` of the format string, applied to `gu.name, numKey`. -/
def commentField (name : String) (numKey : Nat) : String :=
  name ++ "-" ++ formatInt numKey

/-- Model of `fmt.Sprintf("%s %s-%d\n", key, gu.name, numKey)`. -/
def sprintfLine (key name : String) (numKey : Nat) : String :=
  key ++ " " ++ commentField name numKey ++ "\n"

/-- The `for numKey, key := range gu.keys` loop of `formatOut`; `numKey` is the
index of the head of the remaining keys and `formatted` the accumulator. -/
def formatOutLoop (name : String) : List String → Nat → String → String
  | [], _, formatted => formatted
  | key :: rest, numKey, formatted =>
    formatOutLoop name rest (numKey + 1) (formatted ++ sprintfLine key name numKey)

/-- Method `formatOut`. -/
def githubUser.formatOut (gu : githubUser) : String :=
  formatOutLoop gu.name gu.keys 0 ""

/-- Go's `len(s) == 0` on a string. -/
def strIsEmpty (s : String) : Bool := s.length == 0

/-! ## The remote service and the trace of effects -/

/-- A team record of the API (`github.Team`), fields `ID` and `Name`. -/
structure Team where
  ID : Int
  Name : String
deriving DecidableEq, Repr

/-- A member record of the API (`github.User`), field `Login`. -/
structure Member where
  Login : String
deriving DecidableEq, Repr

/-- A public-key record of the API (`github.Key`), field `Key`. -/
structure UserKey where
  Key : String
deriving DecidableEq, Repr

/-- What an API call returns: the decoded items and the error value
(`none` is Go's `nil` error; on failure the library returns no items). -/
structure ApiResult (α : Type) where
  items : List α
  err : Option String

/-- The three calls the program makes on a `github.Client`. -/
structure GithubClient where
  ListTeams : String → ApiResult Team
  ListTeamMembers : Int → ApiResult Member
  ListKeys : String → ApiResult UserKey

/-- The service as reached with a given access token. -/
abbrev Network := String → GithubClient

/-- Observable effects of a run, in the order they happen. -/
inductive Event where
  | listTeams (org : String)
  | listTeamMembers (teamId : Int)
  | listKeys (login : String)
  | stdout (text : String)
  | stderr (text : String)
  | writeFile (path content : String) (perm : Nat)
deriving DecidableEq, Repr

/-- The `if err != nil { fmt.Printf("Error: %s", err) }` block. -/
def printErr (err : Option String) (tr : List Event) : List Event :=
  match err with
  | none => tr
  | some e => tr ++ [Event.stdout ("Error: " ++ e)]

/-! ## The functions of `main.go` -/

/-- Function `contains`: linear scan with early return. -/
def contains : List String → String → Bool
  | [], _ => false
  | a :: s, e => if a = e then true else contains s e

/-- Function `usersContain`: linear scan over the users with early return. -/
def usersContain : List githubUser → String → Bool
  | [], _ => false
  | user :: actualUsers, username =>
    if user.name = username then true else usersContain actualUsers username

/-- The `for _, team := range teams` loop of `getTeamsIds`. -/
def getTeamsIdsLoop (githubTeams : String) (githubTeamsArr : List String) :
    List Team → List Int → List Int
  | [], teamsIds => teamsIds
  | team :: teams, teamsIds =>
    if strIsEmpty githubTeams || contains githubTeamsArr team.Name then
      getTeamsIdsLoop githubTeams githubTeamsArr teams (teamsIds ++ [team.ID])
    else
      getTeamsIdsLoop githubTeams githubTeamsArr teams teamsIds

/-- Function `getTeamsIds`. -/
def getTeamsIds (githubClient : GithubClient) (githubOrganization githubTeams : String)
    (tr : List Event) : List Int × List Event :=
  let githubTeamsArr := stringsSplitComma githubTeams
  let res := githubClient.ListTeams githubOrganization
  let tr1 := printErr res.err (tr ++ [Event.listTeams githubOrganization])
  (getTeamsIdsLoop githubTeams githubTeamsArr res.items [], tr1)

/-- The `for _, key := range keys` loop of `getTeamUsers`. -/
def keysLoop : List UserKey → List String → List String
  | [], userKeys => userKeys
  | key :: keys, userKeys => keysLoop keys (userKeys ++ [key.Key])

/-- The `for _, member := range members` loop of `getTeamUsers`. -/
def getTeamUsersLoop (githubClient : GithubClient) (actualUsers : List githubUser) :
    List Member → List githubUser → List Event → List githubUser × List Event
  | [], users, tr => (users, tr)
  | member :: members, users, tr =>
    if !usersContain actualUsers member.Login then
      let res := githubClient.ListKeys member.Login
      let tr1 := printErr res.err (tr ++ [Event.listKeys member.Login])
      let user : githubUser := { name := member.Login, keys := keysLoop res.items [] }
      getTeamUsersLoop githubClient actualUsers members (users ++ [user]) tr1
    else
      getTeamUsersLoop githubClient actualUsers members users tr

/-- Function `getTeamUsers`. -/
def getTeamUsers (githubClient : GithubClient) (teamId : Int)
    (actualUsers : List githubUser) (tr : List Event) : List githubUser × List Event :=
  let res := githubClient.ListTeamMembers teamId
  let tr1 := printErr res.err (tr ++ [Event.listTeamMembers teamId])
  getTeamUsersLoop githubClient actualUsers res.items [] tr1

/-- The `for _, teamId := range teamsIds` loop of `getUsers`. -/
def getUsersLoop (githubClient : GithubClient) :
    List Int → List githubUser → List Event → List githubUser × List Event
  | [], users, tr => (users, tr)
  | teamId :: teamsIds, users, tr =>
    let res := getTeamUsers githubClient teamId users tr
    getUsersLoop githubClient teamsIds (users ++ res.1) res.2

/-- Function `getGithubClient`: builds the client for the token; no request is sent. -/
def getGithubClient (net : Network) (githubAccessToken : String) : GithubClient :=
  net githubAccessToken

/-- Function `getUsers`. -/
def getUsers (net : Network) (githubAccessToken githubOrganization githubTeams : String)
    (tr : List Event) : List githubUser × List Event :=
  let githubClient := getGithubClient net githubAccessToken
  let res := getTeamsIds githubClient githubOrganization githubTeams tr
  getUsersLoop githubClient res.1 [] res.2

/-- The `for _, user := range sshUsers` loop of `writeUsersToFile`. -/
def writeUsersLoop : List githubUser → String → String
  | [], allUsersStr => allUsersStr
  | user :: sshUsers, allUsersStr =>
    if user.hasKeys then writeUsersLoop sshUsers (allUsersStr ++ user.formatOut)
    else writeUsersLoop sshUsers allUsersStr

/-- The content that `writeUsersToFile` hands to `ioutil.WriteFile`. -/
def writeUsersContent (sshUsers : List githubUser) : String :=
  writeUsersLoop sshUsers ""

/-- Function `writeUsersToFile`: one `WriteFile` call with mode `0`; the error
it returns is discarded. -/
def writeUsersToFile (sshUsers : List githubUser) (authorizedKeysFile : String)
    (tr : List Event) : List Event :=
  tr ++ [Event.writeFile authorizedKeysFile (writeUsersContent sshUsers) 0]

/-- The process environment: `none` for a variable that is not set. -/
abbrev Env := String → Option String

/-- Model of `os.Getenv`: the empty string for a variable that is not set. -/
def Getenv (env : Env) (envVar : String) : String :=
  (env envVar).getD ""

/-- Result of a call that may end the process with `os.Exit`. -/
inductive Outcome (α : Type) where
  | value (v : α) (tr : List Event)
  | exit (code : Nat) (tr : List Event)

/-- Function `getEnvOrFail`. -/
def getEnvOrFail (env : Env) (envVar : String) (tr : List Event) : Outcome String :=
  let value := Getenv env envVar
  if value = "" then
    Outcome.exit 1 (tr ++ [Event.stderr ("Error: environment variable " ++ envVar ++
      " doesn't exist or it's empty, set it and try it again")])
  else
    Outcome.value value tr

/-- Function `getEnvOrDefault`. -/
def getEnvOrDefault (env : Env) (envVar defaultValue : String) : String :=
  let value := Getenv env envVar
  if value = "" then defaultValue else value

/-- Function `main`: the exit code of the process and the trace of its effects. -/
def main (env : Env) (net : Network) (tr : List Event) : Nat × List Event :=
  match getEnvOrFail env "GITHUB_ACCESS_TOKEN" tr with
  | Outcome.exit code tr1 => (code, tr1)
  | Outcome.value githubAccessToken tr1 =>
    match getEnvOrFail env "GITHUB_ORGANIZATION" tr1 with
    | Outcome.exit code tr2 => (code, tr2)
    | Outcome.value githubOrganization tr2 =>
      let githubTeams := getEnvOrDefault env "GITHUB_TEAMS" ""
      let home := Getenv env "HOME"
      let authorizedKeysFile :=
        getEnvOrDefault env "AUTHORIZED_KEYS_FILE" (home ++ "/.ssh/authorized_keys")
      let res := getUsers net githubAccessToken githubOrganization githubTeams tr2
      (0, writeUsersToFile res.1 authorizedKeysFile res.2)

/-! ## Concrete data used in examples -/

/-- A client with two teams; `bob` belongs to both and `carol` has no key. -/
def demoClient : GithubClient where
  ListTeams := fun _ => ⟨[⟨1, "infra"⟩, ⟨2, "dev"⟩], none⟩
  ListTeamMembers := fun teamId =>
    if teamId = 1 then ⟨[⟨"alice"⟩, ⟨"bob"⟩], none⟩
    else if teamId = 2 then ⟨[⟨"bob"⟩, ⟨"carol"⟩], none⟩
    else ⟨[], some "404 Not Found"⟩
  ListKeys := fun login =>
    if login = "alice" then ⟨[⟨"ssh-rsa AAA..."⟩, ⟨"ssh-ed25519 BBB..."⟩], none⟩
    else if login = "bob" then ⟨[⟨"ssh-rsa CCC..."⟩], none⟩
    else ⟨[], none⟩

/-- A client whose single team lists the login `a` twice. -/
def dupClient : GithubClient where
  ListTeams := fun _ => ⟨[⟨1, "infra"⟩], none⟩
  ListTeamMembers := fun _ => ⟨[⟨"a"⟩, ⟨"a"⟩], none⟩
  ListKeys := fun _ => ⟨[⟨"ssh-rsa AAA..."⟩], none⟩

/-! ## Specification-side definitions -/

/-- The logins of the member list that the service returns for a team. -/
def teamLogins (c : GithubClient) (teamId : Int) : List String :=
  (c.ListTeamMembers teamId).items.map Member.Login

/-- The record described for a login: its name and the keys that the service
returns for it, in the returned order. -/
def userOf (c : GithubClient) (login : String) : githubUser :=
  { name := login, keys := (c.ListKeys login).items.map UserKey.Key }

/-- Keeping the elements that are neither in `seen` nor earlier in the list. -/
def keepFirstAux (seen : List String) : List String → List String
  | [] => []
  | x :: xs =>
    if x ∈ seen then keepFirstAux seen xs else x :: keepFirstAux (seen ++ [x]) xs

/-- Keeping only the first occurrence of each element of a list. -/
def firstOccurrences (l : List String) : List String :=
  keepFirstAux [] l

/-- The team ids of the member-listing requests of a trace, in order. -/
def memberCalls : List Event → List Int
  | [] => []
  | Event.listTeamMembers teamId :: tr => teamId :: memberCalls tr
  | _ :: tr => memberCalls tr

/-- The logins of a team that are not among the names `seen`. -/
def newLogins (c : GithubClient) (seen : List String) (teamId : Int) : List String :=
  (teamLogins c teamId).filter (fun l => decide (l ∉ seen))

/-- What printing an error value adds to a trace. -/
def errEvents (err : Option String) : List Event :=
  printErr err []

/-- The events of one key-listing call: the request, then the error message if any. -/
def keyEvents (c : GithubClient) (login : String) : List Event :=
  Event.listKeys login :: errEvents (c.ListKeys login).err

/-- The events of processing one team when the names `seen` are already known. -/
def teamEvents (c : GithubClient) (seen : List String) (teamId : Int) : List Event :=
  Event.listTeamMembers teamId :: errEvents (c.ListTeamMembers teamId).err
    ++ ((newLogins c seen teamId).map (keyEvents c)).flatten

/-- The names known after processing the teams `ids`, starting from `seen`. -/
def seenAfter (c : GithubClient) : List Int → List String → List String
  | [], seen => seen
  | teamId :: ids, seen => seenAfter c ids (seen ++ newLogins c seen teamId)

/-- The events of processing the teams `ids`, starting from the names `seen`. -/
def loopEvents (c : GithubClient) : List Int → List String → List Event
  | [], _ => []
  | teamId :: ids, seen =>
    teamEvents c seen teamId ++ loopEvents c ids (seen ++ newLogins c seen teamId)

/-- The logins added by processing the teams `ids`, starting from the names `seen`. -/
def newAfter (c : GithubClient) : List Int → List String → List String
  | [], _ => []
  | teamId :: ids, seen =>
    newLogins c seen teamId ++ newAfter c ids (seen ++ newLogins c seen teamId)

/-- The client `c` in which the member listing of team `t` succeeds with no member. -/
def withEmptyTeam (c : GithubClient) (t : Int) : GithubClient where
  ListTeams := c.ListTeams
  ListTeamMembers := fun teamId => if teamId = t then ⟨[], none⟩ else c.ListTeamMembers teamId
  ListKeys := c.ListKeys

/-- A client with two teams that both list `u`; team 1 also lists `x` twice. -/
def repeatClient : GithubClient where
  ListTeams := fun _ => ⟨[⟨1, "infra"⟩, ⟨2, "dev"⟩], none⟩
  ListTeamMembers := fun teamId =>
    if teamId = 1 then ⟨[⟨"x"⟩, ⟨"x"⟩, ⟨"u"⟩], none⟩ else ⟨[⟨"u"⟩], none⟩
  ListKeys := fun _ => ⟨[⟨"ssh-rsa AAA..."⟩], none⟩

/-- A client with three teams in which the member listing of team 2 fails. -/
def failingClient : GithubClient where
  ListTeams := fun _ => ⟨[⟨1, "infra"⟩, ⟨2, "dev"⟩, ⟨3, "ops"⟩], none⟩
  ListTeamMembers := fun teamId =>
    if teamId = 1 then ⟨[⟨"alice"⟩], none⟩
    else if teamId = 2 then ⟨[], some "connection reset"⟩
    else ⟨[⟨"bob"⟩, ⟨"alice"⟩], none⟩
  ListKeys := fun login =>
    if login = "alice" then ⟨[⟨"ssh-rsa AAA..."⟩], none⟩ else ⟨[⟨"ssh-rsa CCC..."⟩], none⟩

/-- The number that a list of decimal digit characters denotes. -/
def digitsValue (cs : List Char) : Nat :=
  cs.foldl (fun acc c => 10 * acc + (c.toNat - 48)) 0

/-! ## Lemmas on strings and on the library models -/

theorem splitChars_ne_nil (sep : Char) (l : List Char) : splitChars sep l ≠ [] := by
  cases l with
  | nil => simp [splitChars]
  | cons c cs =>
    unfold splitChars
    split
    · simp
    · split <;> simp

/-- Joining the segments of `splitChars` with the separator gives the input back. -/
theorem intercalate_splitChars (sep : Char) (l : List Char) :
    [sep].intercalate (splitChars sep l) = l := by
  induction l with
  | nil => simp [splitChars, List.intercalate]
  | cons c cs ih =>
    unfold splitChars
    by_cases h : c = sep
    · subst h
      simp only [if_true]
      cases hs : splitChars c cs with
      | nil => exact absurd hs (splitChars_ne_nil _ _)
      | cons seg segs =>
        rw [hs] at ih
        simp [List.intercalate, List.intersperse] at ih ⊢
        exact ih
    · simp only [h, if_false]
      cases hs : splitChars sep cs with
      | nil => exact absurd hs (splitChars_ne_nil _ _)
      | cons seg segs =>
        rw [hs] at ih
        cases segs with
        | nil => simp [List.intercalate, List.intersperse] at ih ⊢; exact ih
        | cons s2 rest => simp [List.intercalate, List.intersperse] at ih ⊢; exact ih

/-- No segment of `splitChars` contains the separator. -/
theorem sep_not_mem_splitChars (sep : Char) (l : List Char) :
    ∀ seg ∈ splitChars sep l, sep ∉ seg := by
  induction l with
  | nil => simp [splitChars]
  | cons c cs ih =>
    unfold splitChars
    by_cases h : c = sep
    · subst h
      simp only [if_true]
      intro seg hseg
      rcases List.mem_cons.1 hseg with rfl | hmem
      · simp
      · exact ih seg hmem
    · simp only [h, if_false]
      cases hs : splitChars sep cs with
      | nil => exact absurd hs (splitChars_ne_nil _ _)
      | cons seg0 segs =>
        rw [hs] at ih
        intro seg hseg
        rcases List.mem_cons.1 hseg with rfl | hmem
        · intro hin
          rcases List.mem_cons.1 hin with heq | hin2
          · exact h heq.symm
          · exact ih seg0 (List.mem_cons_self _ _) hin2
        · exact ih seg (List.mem_cons_of_mem _ hmem)

theorem contains_iff (s : List String) (e : String) : contains s e = true ↔ e ∈ s := by
  induction s with
  | nil => simp [contains]
  | cons a s ih =>
    unfold contains
    by_cases h : a = e
    · simp [h]
    · simp [h, ih, Ne.symm h]

theorem strIsEmpty_iff (s : String) : strIsEmpty s = true ↔ s = "" := by
  unfold strIsEmpty
  constructor
  · intro h
    have h1 : s.length = 0 := beq_iff_eq.1 h
    cases s with
    | mk d =>
      have h2 : d.length = 0 := h1
      have h3 : d = [] := List.length_eq_zero.1 h2
      subst h3
      rfl
  · rintro rfl
    rfl

theorem join_cons (x : String) (xs : List String) :
    String.join (x :: xs) = x ++ String.join xs :=
  String.ext (by simp [String.data_join])

theorem join_append (xs ys : List String) :
    String.join (xs ++ ys) = String.join xs ++ String.join ys :=
  String.ext (by simp [String.data_join])

/-! ## Team selection -/

theorem getTeamsIdsLoop_eq (F : String) (arr : List String) (teams : List Team)
    (acc : List Int) :
    getTeamsIdsLoop F arr teams acc
      = acc ++ (teams.filter (fun t => decide (F = "" ∨ t.Name ∈ arr))).map Team.ID := by
  induction teams generalizing acc with
  | nil => simp [getTeamsIdsLoop]
  | cons t ts ih =>
    unfold getTeamsIdsLoop
    by_cases h : F = "" ∨ t.Name ∈ arr
    · have hc : (strIsEmpty F || contains arr t.Name) = true := by
        rcases h with h | h
        · simp [(strIsEmpty_iff F).2 h]
        · simp [(contains_iff arr t.Name).2 h]
      rw [if_pos hc, ih, List.filter_cons_of_pos (by simpa using h)]
      simp
    · have hc : ¬ (strIsEmpty F || contains arr t.Name) = true := by
        intro hc
        rcases Bool.or_eq_true _ _ ▸ hc with h1 | h1
        · exact h (Or.inl ((strIsEmpty_iff F).1 h1))
        · exact h (Or.inr ((contains_iff arr t.Name).1 h1))
      rw [if_neg hc, ih, List.filter_cons_of_neg (by simpa using h)]

/-- Claim C1: `getTeamsIds` returns, in the order of the team listing, the ids of
exactly the teams for which the filter is empty or whose name equals one of the
segments of the filter split on `,`; an empty filter selects every team, filter
`infra` on teams `infra` (1) and `dev` (2) gives `[1]`, and filter `a, b` selects
the teams named `a` or ` b` only, so a team named `b` is not selected. -/
theorem getTeamsIds_selects :
    (∀ (c : GithubClient) (org F : String) (tr : List Event),
      (getTeamsIds c org F tr).1
        = ((c.ListTeams org).items.filter
            (fun t => decide (F = "" ∨ t.Name ∈ stringsSplitComma F))).map Team.ID)
    ∧ (∀ (c : GithubClient) (org : String) (tr : List Event),
      (getTeamsIds c org "" tr).1 = (c.ListTeams org).items.map Team.ID)
    ∧ (∀ (c : GithubClient) (org : String) (tr : List Event) (e : Option String),
      c.ListTeams org = ⟨[⟨1, "infra"⟩, ⟨2, "dev"⟩], e⟩ →
      (getTeamsIds c org "infra" tr).1 = [1])
    ∧ (∀ (c : GithubClient) (org : String) (tr : List Event),
      (getTeamsIds c org "a, b" tr).1
        = ((c.ListTeams org).items.filter
            (fun t => decide (t.Name = "a" ∨ t.Name = " b"))).map Team.ID)
    ∧ (∀ (c : GithubClient) (org : String) (tr : List Event) (e : Option String),
      c.ListTeams org = ⟨[⟨1, "a"⟩, ⟨2, "b"⟩], e⟩ →
      (getTeamsIds c org "a, b" tr).1 = [1]) := by
  have main : ∀ (c : GithubClient) (org F : String) (tr : List Event),
      (getTeamsIds c org F tr).1
        = ((c.ListTeams org).items.filter
            (fun t => decide (F = "" ∨ t.Name ∈ stringsSplitComma F))).map Team.ID := by
    intro c org F tr
    simp [getTeamsIds, getTeamsIdsLoop_eq]
  refine ⟨main, ?_, ?_, ?_, ?_⟩
  · intro c org tr
    rw [main]
    simp
  · intro c org tr e h
    rw [main, h]
    dsimp only
    decide
  · intro c org tr
    rw [main]
    have hs : stringsSplitComma "a, b" = ["a", " b"] := by decide
    have hne : ¬ (("a, b" : String) = "") := by decide
    simp [hs, hne]
  · intro c org tr e h
    rw [main, h]
    dsimp only
    decide

/-- Witness for `getTeamsIds_selects` on the two-team client. -/
theorem getTeamsIds_selects_witness :
    demoClient.ListTeams "org" = ⟨[⟨1, "infra"⟩, ⟨2, "dev"⟩], none⟩
    ∧ (getTeamsIds demoClient "org" "infra" []).1 = [1] :=
  ⟨rfl, getTeamsIds_selects.2.2.1 demoClient "org" [] none rfl⟩

/-! ## Formatting -/

theorem formatOutLoop_eq (name : String) (ks : List String) (k : Nat) (acc : String) :
    formatOutLoop name ks k acc
      = acc ++ String.join ((List.range ks.length).map
          (fun i => ks.getD i "" ++ " " ++ name ++ "-" ++ Nat.repr (k + i) ++ "\n")) := by
  induction ks generalizing k acc with
  | nil => simp [formatOutLoop, String.join]
  | cons key rest ih =>
    unfold formatOutLoop
    rw [ih, List.length_cons, List.range_succ_eq_map, List.map_cons, join_cons,
      List.map_map]
    have hf : ((fun i => (key :: rest).getD i "" ++ " " ++ name ++ "-"
          ++ Nat.repr (k + i) ++ "\n") ∘ Nat.succ)
        = (fun i => rest.getD i "" ++ " " ++ name ++ "-" ++ Nat.repr (k + 1 + i) ++ "\n") := by
      funext i
      simp [Nat.succ_eq_add_one, Nat.add_assoc, Nat.add_comm 1 i]
    rw [hf]
    simp [sprintfLine, commentField, formatInt, String.append_assoc]

theorem formatOut_nil (n : String) : githubUser.formatOut ⟨n, []⟩ = "" := rfl

/-- Claim C4: `formatOut` of a user named `n` with keys `k0 .. k(m-1)` is the
concatenation, for `i` from `0` to `m-1`, of `ki`, a space, `n`, `-`, the decimal
rendering of `i` and a newline; `alice` with two keys gives the two expected
lines, and a user with no keys gives the empty string. -/
theorem formatOut_lines :
    (∀ (n : String) (ks : List String),
      githubUser.formatOut ⟨n, ks⟩
        = String.join ((List.range ks.length).map
            (fun i => ks.getD i "" ++ " " ++ n ++ "-" ++ Nat.repr i ++ "\n")))
    ∧ githubUser.formatOut ⟨"alice", ["ssh-rsa AAA...", "ssh-ed25519 BBB..."]⟩
        = "ssh-rsa AAA... alice-0\nssh-ed25519 BBB... alice-1\n"
    ∧ (∀ n : String, githubUser.formatOut ⟨n, []⟩ = "") := by
  refine ⟨?_, by decide, formatOut_nil⟩
  intro n ks
  simp [githubUser.formatOut, formatOutLoop_eq]

/-! ## Writing the file -/

theorem writeUsersLoop_eq (us : List githubUser) (acc : String) :
    writeUsersLoop us acc
      = acc ++ String.join ((us.filter githubUser.hasKeys).map githubUser.formatOut) := by
  induction us generalizing acc with
  | nil => simp [writeUsersLoop, String.join]
  | cons u us ih =>
    unfold writeUsersLoop
    by_cases h : u.hasKeys = true
    · rw [if_pos h, ih, List.filter_cons_of_pos h, List.map_cons, join_cons,
        String.append_assoc]
    · rw [if_neg h, ih, List.filter_cons_of_neg h]

theorem formatOut_of_not_hasKeys (u : githubUser) (h : ¬ u.hasKeys = true) :
    u.formatOut = "" := by
  cases u with
  | mk n ks =>
    cases ks with
    | nil => rfl
    | cons k ks => exact absurd (by simp [githubUser.hasKeys]) h

theorem join_filter_hasKeys (us : List githubUser) :
    String.join ((us.filter githubUser.hasKeys).map githubUser.formatOut)
      = String.join (us.map githubUser.formatOut) := by
  induction us with
  | nil => rfl
  | cons u us ih =>
    by_cases h : u.hasKeys = true
    · rw [List.filter_cons_of_pos h, List.map_cons, List.map_cons, join_cons, join_cons, ih]
    · rw [List.filter_cons_of_neg h, List.map_cons, join_cons, ih,
        formatOut_of_not_hasKeys u h, String.empty_append]

/-- Claim C5: the content that `writeUsersToFile` passes to the file write is the
concatenation, in user-list order, of `formatOut` of the users that have at least
one key; a user with zero keys contributes nothing to the content. -/
theorem writeUsersToFile_content :
    (∀ (us : List githubUser) (path : String) (tr : List Event),
      writeUsersToFile us path tr
        = tr ++ [Event.writeFile path
            (String.join ((us.filter (fun u => decide (u.keys.length > 0))).map
              githubUser.formatOut)) 0])
    ∧ (∀ (xs ys : List githubUser) (n path : String) (tr : List Event),
      writeUsersToFile (xs ++ ⟨n, []⟩ :: ys) path tr = writeUsersToFile (xs ++ ys) path tr) := by
  have main : ∀ (us : List githubUser),
      writeUsersContent us
        = String.join ((us.filter (fun u => decide (u.keys.length > 0))).map
              githubUser.formatOut) := by
    intro us
    have := writeUsersLoop_eq us ""
    simpa [writeUsersContent, githubUser.hasKeys] using this
  constructor
  · intro us path tr
    simp [writeUsersToFile, main]
  · intro xs ys n path tr
    simp [writeUsersToFile, main, List.filter_append]

/-- Claim C10: the `hasKeys` filter does not change what is written: the content
equals the concatenation of `formatOut` over all users of the list, in order,
and `formatOut` of a user with zero keys is the empty string. -/
theorem writeUsersToFile_filter_redundant :
    (∀ (us : List githubUser) (path : String) (tr : List Event),
      writeUsersToFile us path tr
        = tr ++ [Event.writeFile path (String.join (us.map githubUser.formatOut)) 0])
    ∧ (∀ n : String, githubUser.formatOut ⟨n, []⟩ = "") := by
  refine ⟨?_, formatOut_nil⟩
  intro us path tr
  have := writeUsersLoop_eq us ""
  simp [writeUsersToFile, writeUsersContent, this, join_filter_hasKeys]

/-! ## The comment field -/

theorem digitChar_value : ∀ k, k < 10 → (Nat.digitChar k).toNat - 48 = k := by decide

theorem digitChar_ne_dash : ∀ k, k < 10 → Nat.digitChar k ≠ '-' := by decide

theorem toDigitsCore_spec (fuel : Nat) : ∀ (n : Nat) (ds : List Char), n < fuel →
    ∃ pre : List Char, Nat.toDigitsCore 10 fuel n ds = pre ++ ds
      ∧ '-' ∉ pre ∧ digitsValue pre = n := by
  induction fuel with
  | zero => intro n ds h; exact absurd h (Nat.not_lt_zero _)
  | succ fuel ih =>
    intro n ds h
    have hmod : n % 10 < 10 := Nat.mod_lt _ (by decide)
    by_cases h0 : n / 10 = 0
    · refine ⟨[Nat.digitChar (n % 10)], ?_, ?_, ?_⟩
      · simp [Nat.toDigitsCore, h0]
      · simpa using (digitChar_ne_dash _ hmod).symm
      · have hn : n % 10 = n := by omega
        have hv := digitChar_value _ hmod
        rw [hn] at hv
        simp [digitsValue, hn, hv]
    · have hlt : n / 10 < fuel := by omega
      obtain ⟨pre, hpre, hdash, hval⟩ := ih (n / 10) (Nat.digitChar (n % 10) :: ds) hlt
      refine ⟨pre ++ [Nat.digitChar (n % 10)], ?_, ?_, ?_⟩
      · simp [Nat.toDigitsCore, h0, hpre]
      · simp only [List.mem_append, List.mem_singleton, not_or]
        exact ⟨hdash, (digitChar_ne_dash _ hmod).symm⟩
      · have hv : digitsValue (pre ++ [Nat.digitChar (n % 10)])
            = 10 * digitsValue pre + ((Nat.digitChar (n % 10)).toNat - 48) := by
          simp [digitsValue, List.foldl_append]
        rw [hv, hval, digitChar_value _ hmod]
        omega

theorem formatInt_spec (n : Nat) :
    '-' ∉ (formatInt n).data ∧ digitsValue (formatInt n).data = n := by
  obtain ⟨pre, hpre, hdash, hval⟩ := toDigitsCore_spec (n + 1) n [] (Nat.lt_succ_self n)
  have hd : (formatInt n).data = pre := by
    simp [formatInt, Nat.repr, Nat.toDigits, hpre, List.asString]
  rw [hd]
  exact ⟨hdash, hval⟩

theorem append_cons_unique {α : Type} (x : α) :
    ∀ (a a2 b b2 : List α), x ∉ b → x ∉ b2 → a ++ x :: b = a2 ++ x :: b2 →
      a = a2 ∧ b = b2 := by
  intro a
  induction a with
  | nil =>
    intro a2 b b2 hb hb2 h
    cases a2 with
    | nil => simpa using h
    | cons y ys =>
      simp only [List.nil_append, List.cons_append, List.cons.injEq] at h
      exact absurd (h.2 ▸ (by simp : x ∈ ys ++ x :: b2)) hb
  | cons z zs ih =>
    intro a2 b b2 hb hb2 h
    cases a2 with
    | nil =>
      simp only [List.nil_append, List.cons_append, List.cons.injEq] at h
      exact absurd (h.2 ▸ (by simp : x ∈ zs ++ x :: b)) hb2
    | cons y ys =>
      simp only [List.cons_append, List.cons.injEq] at h
      obtain ⟨h1, h2⟩ := ih ys b b2 hb hb2 h.2
      exact ⟨by rw [h.1, h1], h2⟩

theorem commentField_data (n : String) (i : Nat) :
    (commentField n i).data = n.data ++ '-' :: (formatInt i).data := by
  simp [commentField]

/-- Claim C9: the comment `<name>-<index>` that `formatOut` appends to each key
determines both the name and the index: equal comments come from equal names and
equal indices, so two different key indices of one user never get the same
comment. -/
theorem commentField_injective :
    (∀ (n n2 : String) (i j : Nat),
      n ++ "-" ++ Nat.repr i = n2 ++ "-" ++ Nat.repr j → n = n2 ∧ i = j)
    ∧ (∀ (n : String) (i j : Nat), i ≠ j → commentField n i ≠ commentField n j)
    ∧ (∀ (n : String) (ks : List String),
      githubUser.formatOut ⟨n, ks⟩
        = String.join ((List.range ks.length).map
            (fun i => ks.getD i "" ++ " " ++ commentField n i ++ "\n"))) := by
  have main : ∀ (n n2 : String) (i j : Nat),
      commentField n i = commentField n2 j → n = n2 ∧ i = j := by
    intro n n2 i j h
    have hd : n.data ++ '-' :: (formatInt i).data
        = n2.data ++ '-' :: (formatInt j).data := by
      rw [← commentField_data, ← commentField_data, h]
    obtain ⟨h1, h2⟩ :=
      append_cons_unique '-' _ _ _ _ (formatInt_spec i).1 (formatInt_spec j).1 hd
    refine ⟨String.ext h1, ?_⟩
    rw [← (formatInt_spec i).2, ← (formatInt_spec j).2, h2]
  refine ⟨fun n n2 i j h => main n n2 i j h, ?_, ?_⟩
  · intro n i j hij h
    exact hij (main n n i j h).2
  · intro n ks
    simp [githubUser.formatOut, formatOutLoop_eq, commentField, formatInt,
      String.append_assoc]

/-- Witness for `commentField_injective` at `alice-10`. -/
theorem commentField_injective_witness :
    ("alice" : String) ++ "-" ++ Nat.repr 10 = "alice" ++ "-" ++ Nat.repr 10
      ∧ (("alice" : String) = "alice" ∧ 10 = 10) :=
  ⟨rfl, commentField_injective.1 "alice" "alice" 10 10 rfl⟩

/-! ## Required environment variables -/

theorem Getenv_eq_empty_iff (env : Env) (v : String) :
    Getenv env v = "" ↔ env v = none ∨ env v = some "" := by
  unfold Getenv
  cases h : env v with
  | none => simp
  | some x => simp

theorem getEnvOrFail_of_empty (env : Env) (v : String) (tr : List Event)
    (h : Getenv env v = "") :
    getEnvOrFail env v tr = Outcome.exit 1 (tr ++ [Event.stderr
      ("Error: environment variable " ++ v ++
        " doesn't exist or it's empty, set it and try it again")]) := by
  simp [getEnvOrFail, h]

theorem getEnvOrFail_of_nonempty (env : Env) (v : String) (tr : List Event)
    (h : Getenv env v ≠ "") :
    getEnvOrFail env v tr = Outcome.value (Getenv env v) tr := by
  simp [getEnvOrFail, h]

/-- Claim C7: when `GITHUB_ACCESS_TOKEN` or `GITHUB_ORGANIZATION` is unset or
empty, `main` ends with exit code 1 and the only effect of the run is one message
on the error stream: no request to the service and no file write; `getEnvOrFail`
returns the value of the variable without exiting exactly when that value is
non-empty, and exits with code 1 otherwise. -/
theorem main_exits_on_missing_env :
    (∀ (env : Env) (net : Network) (tr : List Event),
      (env "GITHUB_ACCESS_TOKEN" = none ∨ env "GITHUB_ACCESS_TOKEN" = some ""
        ∨ env "GITHUB_ORGANIZATION" = none ∨ env "GITHUB_ORGANIZATION" = some "") →
      ∃ msg : String, main env net tr = (1, tr ++ [Event.stderr msg]))
    ∧ (∀ (env : Env) (v : String) (tr : List Event),
      (∃ tr2, getEnvOrFail env v tr = Outcome.value (Getenv env v) tr2)
        ↔ Getenv env v ≠ "")
    ∧ (∀ (env : Env) (v : String) (tr : List Event),
      (∃ tr2, getEnvOrFail env v tr = Outcome.exit 1 tr2) ↔ Getenv env v = "") := by
  refine ⟨?_, ?_, ?_⟩
  · intro env net tr h
    by_cases ht : Getenv env "GITHUB_ACCESS_TOKEN" = ""
    · refine ⟨"Error: environment variable " ++ "GITHUB_ACCESS_TOKEN" ++
        " doesn't exist or it's empty, set it and try it again", ?_⟩
      unfold main
      rw [getEnvOrFail_of_empty env _ tr ht]
    · have ho : Getenv env "GITHUB_ORGANIZATION" = "" := by
        rcases h with h | h | h | h
        · exact absurd ((Getenv_eq_empty_iff env _).2 (Or.inl h)) ht
        · exact absurd ((Getenv_eq_empty_iff env _).2 (Or.inr h)) ht
        · exact (Getenv_eq_empty_iff env _).2 (Or.inl h)
        · exact (Getenv_eq_empty_iff env _).2 (Or.inr h)
      refine ⟨"Error: environment variable " ++ "GITHUB_ORGANIZATION" ++
        " doesn't exist or it's empty, set it and try it again", ?_⟩
      unfold main
      rw [getEnvOrFail_of_nonempty env _ tr ht]
      dsimp only
      rw [getEnvOrFail_of_empty env _ tr ho]
  · intro env v tr
    constructor
    · rintro ⟨tr2, h⟩ he
      rw [getEnvOrFail_of_empty env v tr he] at h
      cases h
    · intro h
      exact ⟨tr, getEnvOrFail_of_nonempty env v tr h⟩
  · intro env v tr
    constructor
    · rintro ⟨tr2, h⟩
      by_contra he
      rw [getEnvOrFail_of_nonempty env v tr he] at h
      cases h
    · intro h
      exact ⟨_, getEnvOrFail_of_empty env v tr h⟩

/-- Witness for `main_exits_on_missing_env`: the empty environment. -/
theorem main_exits_on_missing_env_witness :
    ((fun _ => none : Env) "GITHUB_ACCESS_TOKEN" = none)
    ∧ ∃ msg : String, main (fun _ => none) (fun _ => demoClient) []
        = (1, [] ++ [Event.stderr msg]) :=
  ⟨rfl, main_exits_on_missing_env.1 (fun _ => none) (fun _ => demoClient) [] (Or.inl rfl)⟩

/-! ## Aggregation: one team -/

theorem keysLoop_eq (ks : List UserKey) (acc : List String) :
    keysLoop ks acc = acc ++ ks.map UserKey.Key := by
  induction ks generalizing acc with
  | nil => simp [keysLoop]
  | cons k ks ih => simp [keysLoop, ih]

theorem printErr_eq (err : Option String) (tr : List Event) :
    printErr err tr = tr ++ errEvents err := by
  cases err <;> simp [printErr, errEvents]

theorem usersContain_iff (us : List githubUser) (n : String) :
    usersContain us n = true ↔ n ∈ us.map githubUser.name := by
  induction us with
  | nil => simp [usersContain]
  | cons u us ih =>
    unfold usersContain
    by_cases h : u.name = n
    · simp [h]
    · simp [h, ih, Ne.symm h]

theorem name_comp_userOf (c : GithubClient) : githubUser.name ∘ userOf c = id := by
  funext l
  rfl

theorem map_name_userOf (c : GithubClient) (l : List String) :
    (l.map (userOf c)).map githubUser.name = l := by
  simp [name_comp_userOf]

theorem getTeamUsersLoop_eq (c : GithubClient) (actual : List githubUser)
    (ms : List Member) (users : List githubUser) (tr : List Event) :
    getTeamUsersLoop c actual ms users tr
      = (users ++ ((ms.map Member.Login).filter
            (fun l => decide (l ∉ actual.map githubUser.name))).map (userOf c),
         tr ++ (((ms.map Member.Login).filter
            (fun l => decide (l ∉ actual.map githubUser.name))).map (keyEvents c)).flatten) := by
  induction ms generalizing users tr with
  | nil => simp [getTeamUsersLoop]
  | cons m ms ih =>
    unfold getTeamUsersLoop
    by_cases h : m.Login ∈ actual.map githubUser.name
    · have hc : ¬ ((!usersContain actual m.Login) = true) := by
        simp [(usersContain_iff actual m.Login).2 h]
      rw [if_neg hc, ih, List.map_cons, List.filter_cons_of_neg (by simpa using h)]
    · have hc : (!usersContain actual m.Login) = true := by
        have : usersContain actual m.Login = false := by
          cases hu : usersContain actual m.Login with
          | false => rfl
          | true => exact absurd ((usersContain_iff actual m.Login).1 hu) h
        simp [this]
      rw [if_pos hc]
      dsimp only
      rw [ih, List.map_cons, List.filter_cons_of_pos (by simpa using h)]
      simp [userOf, keyEvents, keysLoop_eq, printErr_eq, List.append_assoc]

theorem getTeamUsers_eq (c : GithubClient) (teamId : Int) (actual : List githubUser)
    (tr : List Event) :
    getTeamUsers c teamId actual tr
      = ((newLogins c (actual.map githubUser.name) teamId).map (userOf c),
         tr ++ teamEvents c (actual.map githubUser.name) teamId) := by
  unfold getTeamUsers
  dsimp only
  rw [getTeamUsersLoop_eq]
  simp [newLogins, teamLogins, teamEvents, printErr_eq, List.append_assoc]

/-! ## Aggregation: all teams -/

theorem getUsersLoop_names (c : GithubClient) (ids : List Int) (users : List githubUser)
    (tr : List Event) :
    (getUsersLoop c ids users tr).1.map githubUser.name
      = seenAfter c ids (users.map githubUser.name) := by
  induction ids generalizing users tr with
  | nil => simp [getUsersLoop, seenAfter]
  | cons id ids ih =>
    unfold getUsersLoop
    dsimp only
    rw [ih, getTeamUsers_eq]
    simp [seenAfter, name_comp_userOf]

theorem getUsersLoop_trace (c : GithubClient) (ids : List Int) (users : List githubUser)
    (tr : List Event) :
    (getUsersLoop c ids users tr).2
      = tr ++ loopEvents c ids (users.map githubUser.name) := by
  induction ids generalizing users tr with
  | nil => simp [getUsersLoop, loopEvents]
  | cons id ids ih =>
    unfold getUsersLoop
    dsimp only
    rw [ih, getTeamUsers_eq]
    simp [loopEvents, name_comp_userOf, List.append_assoc]

theorem filter_not_mem_append_singleton (seen L : List String) (x : String) (hx : x ∉ L) :
    L.filter (fun l => decide (l ∉ seen ++ [x])) = L.filter (fun l => decide (l ∉ seen)) := by
  apply List.filter_congr
  intro y hy
  have hne : y ≠ x := fun h => hx (h ▸ hy)
  simp [hne]

theorem keepFirstAux_append (R : List String) :
    ∀ (L seen : List String), L.Nodup →
      keepFirstAux seen (L ++ R)
        = L.filter (fun l => decide (l ∉ seen))
          ++ keepFirstAux (seen ++ L.filter (fun l => decide (l ∉ seen))) R := by
  intro L
  induction L with
  | nil => intro seen _; simp
  | cons x L ih =>
    intro seen hnd
    obtain ⟨hx, hL⟩ := List.nodup_cons.1 hnd
    by_cases hs : x ∈ seen
    · rw [List.cons_append, keepFirstAux, if_pos hs, ih seen hL,
        List.filter_cons_of_neg (by simpa using hs)]
    · rw [List.cons_append, keepFirstAux, if_neg hs, ih (seen ++ [x]) hL,
        List.filter_cons_of_pos (by simpa using hs),
        filter_not_mem_append_singleton seen L x hx]
      simp [List.append_assoc]

theorem mem_keepFirstAux (l : List String) :
    ∀ (seen : List String) (x : String), x ∈ keepFirstAux seen l ↔ x ∈ l ∧ x ∉ seen := by
  induction l with
  | nil => intro seen x; simp [keepFirstAux]
  | cons y l ih =>
    intro seen x
    by_cases hs : y ∈ seen
    · rw [keepFirstAux, if_pos hs, ih]
      constructor
      · rintro ⟨h1, h2⟩; exact ⟨List.mem_cons_of_mem _ h1, h2⟩
      · rintro ⟨h1, h2⟩
        rcases List.mem_cons.1 h1 with rfl | h1
        · exact absurd hs h2
        · exact ⟨h1, h2⟩
    · rw [keepFirstAux, if_neg hs, List.mem_cons, ih]
      constructor
      · rintro (rfl | ⟨h1, h2⟩)
        · exact ⟨List.mem_cons_self _ _, hs⟩
        · exact ⟨List.mem_cons_of_mem _ h1, fun h => h2 (List.mem_append_left _ h)⟩
      · rintro ⟨h1, h2⟩
        by_cases hxy : x = y
        · exact Or.inl hxy
        · rcases List.mem_cons.1 h1 with h | h
          · exact absurd h hxy
          · refine Or.inr ⟨h, ?_⟩
            simp [h2, hxy]

theorem nodup_keepFirstAux (l : List String) :
    ∀ seen : List String, (keepFirstAux seen l).Nodup := by
  induction l with
  | nil => intro seen; simp [keepFirstAux]
  | cons y l ih =>
    intro seen
    by_cases hs : y ∈ seen
    · rw [keepFirstAux, if_pos hs]; exact ih seen
    · rw [keepFirstAux, if_neg hs, List.nodup_cons]
      refine ⟨?_, ih _⟩
      rw [mem_keepFirstAux]
      simp

theorem getUsersLoop_users (c : GithubClient) (ids : List Int) :
    ∀ (users : List githubUser) (tr : List Event),
      (∀ id ∈ ids, (teamLogins c id).Nodup) →
      (getUsersLoop c ids users tr).1
        = users ++ (keepFirstAux (users.map githubUser.name)
            (ids.map (teamLogins c)).flatten).map (userOf c) := by
  induction ids with
  | nil => intro users tr _; simp [getUsersLoop, keepFirstAux]
  | cons id ids ih =>
    intro users tr hnd
    unfold getUsersLoop
    dsimp only
    rw [getTeamUsers_eq, ih _ _ (fun i hi => hnd i (List.mem_cons_of_mem _ hi)),
      List.map_cons, List.flatten_cons,
      keepFirstAux_append _ _ _ (hnd id (List.mem_cons_self _ _))]
    simp [newLogins, name_comp_userOf, List.append_assoc]

theorem getUsers_eq_loop (net : Network) (token org F : String) (tr : List Event) :
    getUsers net token org F tr
      = getUsersLoop (net token) (getTeamsIds (net token) org F tr).1 []
          (getTeamsIds (net token) org F tr).2 := rfl

/-- Claim C3: when no member list of a selected team contains a login twice,
`getUsers` returns the member logins of the teams, concatenated in team order and
reduced to the first occurrence of each login, each mapped to the record made of
the login and the keys returned for it, in the returned order; a login whose key
list is empty is in the result, with no keys. -/
theorem getUsers_first_occurrences :
    ∀ (net : Network) (token org F : String) (tr : List Event),
      (∀ id ∈ (getTeamsIds (net token) org F tr).1, (teamLogins (net token) id).Nodup) →
      (getUsers net token org F tr).1
          = (firstOccurrences
              (((getTeamsIds (net token) org F tr).1.map (teamLogins (net token))).flatten)).map
              (fun login => { name := login,
                              keys := ((net token).ListKeys login).items.map UserKey.Key })
        ∧ (∀ id ∈ (getTeamsIds (net token) org F tr).1,
            ∀ login ∈ teamLogins (net token) id,
              ((net token).ListKeys login).items = [] →
              ({ name := login, keys := [] } : githubUser) ∈ (getUsers net token org F tr).1) := by
  intro net token org F tr hnd
  have main := getUsersLoop_users (net token) (getTeamsIds (net token) org F tr).1 []
    (getTeamsIds (net token) org F tr).2 hnd
  rw [← getUsers_eq_loop] at main
  have main2 : (getUsers net token org F tr).1
      = (firstOccurrences
          (((getTeamsIds (net token) org F tr).1.map (teamLogins (net token))).flatten)).map
          (fun login => { name := login,
                          keys := ((net token).ListKeys login).items.map UserKey.Key }) := by
    rw [main]
    simp only [List.map_nil, List.nil_append, firstOccurrences]
    rfl
  refine ⟨main2, ?_⟩
  intro id hid login hlogin hkeys
  rw [main2, List.mem_map]
  refine ⟨login, ?_, by simp [hkeys]⟩
  rw [firstOccurrences, mem_keepFirstAux]
  refine ⟨?_, by simp⟩
  rw [List.mem_flatten]
  exact ⟨teamLogins (net token) id, List.mem_map_of_mem _ hid, hlogin⟩

/-- Witness for `getUsers_first_occurrences`: the two-team client, in which `bob`
belongs to both teams and `carol` has no key. -/
theorem getUsers_first_occurrences_witness :
    (∀ id ∈ (getTeamsIds ((fun _ => demoClient : Network) "tok") "org" "" []).1,
        (teamLogins ((fun _ => demoClient : Network) "tok") id).Nodup)
    ∧ (getUsers (fun _ => demoClient) "tok" "org" "" []).1
        = (firstOccurrences
            (((getTeamsIds demoClient "org" "" []).1.map (teamLogins demoClient)).flatten)).map
            (fun login => { name := login,
                            keys := (demoClient.ListKeys login).items.map UserKey.Key })
    ∧ (getUsers (fun _ => demoClient) "tok" "org" "" []).1
        = [⟨"alice", ["ssh-rsa AAA...", "ssh-ed25519 BBB..."]⟩, ⟨"bob", ["ssh-rsa CCC..."]⟩,
           ⟨"carol", []⟩] :=
  ⟨by decide,
   (getUsers_first_occurrences (fun _ => demoClient) "tok" "org" "" [] (by decide)).1,
   by decide⟩

/-- When no member list of a selected team holds a login twice, the names of the
users returned by `getUsers` are pairwise distinct. -/
theorem getUsers_names_nodup_of_nodup_lists :
    ∀ (net : Network) (token org F : String) (tr : List Event),
      (∀ id ∈ (getTeamsIds (net token) org F tr).1, (teamLogins (net token) id).Nodup) →
      ((getUsers net token org F tr).1.map githubUser.name).Nodup := by
  intro net token org F tr hnd
  have main := getUsersLoop_users (net token) (getTeamsIds (net token) org F tr).1 []
    (getTeamsIds (net token) org F tr).2 hnd
  rw [← getUsers_eq_loop] at main
  rw [main]
  simp only [List.map_nil, List.nil_append, map_name_userOf]
  exact nodup_keepFirstAux _ _

/-- Claim C2: the list returned by `getUsers` should hold at most one record per
name, and the comment of `getUsers` says duplicates are deleted; the code does
not do so. With an empty filter and one team whose member listing returns the
login `a` twice, `getUsers` requests the keys of `a` twice and returns two
records named `a`, because `getTeamUsers` compares a member with the users of
earlier teams only. -/
theorem getUsers_keeps_repeated_member :
    (getUsers (fun _ => dupClient) "tok" "org" "" []).1
        = [⟨"a", ["ssh-rsa AAA..."]⟩, ⟨"a", ["ssh-rsa AAA..."]⟩]
    ∧ (getUsers (fun _ => dupClient) "tok" "org" "" []).2
        = [Event.listTeams "org", Event.listTeamMembers 1, Event.listKeys "a",
           Event.listKeys "a"]
    ∧ ¬ ((getUsers (fun _ => dupClient) "tok" "org" "" []).1.map githubUser.name).Nodup := by
  refine ⟨?_, ?_, ?_⟩ <;> decide

/-! ## Aggregation: a failing member listing -/

theorem getUsersLoop_users_general (c : GithubClient) (ids : List Int) :
    ∀ (users : List githubUser) (tr : List Event),
      (getUsersLoop c ids users tr).1
        = users ++ (newAfter c ids (users.map githubUser.name)).map (userOf c) := by
  induction ids with
  | nil => intro users tr; simp [getUsersLoop, newAfter]
  | cons id ids ih =>
    intro users tr
    unfold getUsersLoop
    dsimp only
    rw [getTeamUsers_eq, ih]
    simp [newAfter, name_comp_userOf, List.append_assoc]

theorem newAfter_congr (c c2 : GithubClient) (h : ∀ id, teamLogins c id = teamLogins c2 id)
    (ids : List Int) : ∀ seen, newAfter c ids seen = newAfter c2 ids seen := by
  induction ids with
  | nil => intro seen; rfl
  | cons id ids ih =>
    intro seen
    simp [newAfter, newLogins, h, ih]

theorem newAfter_filter (c : GithubClient) (t : Int) (h : teamLogins c t = [])
    (ids : List Int) :
    ∀ seen, newAfter c ids seen = newAfter c (ids.filter (fun id => decide (id ≠ t))) seen := by
  induction ids with
  | nil => intro seen; rfl
  | cons id ids ih =>
    intro seen
    by_cases hid : id = t
    · subst hid
      rw [List.filter_cons_of_neg (by simp), newAfter]
      have hn : newLogins c seen id = [] := by simp [newLogins, h]
      rw [hn, List.nil_append, List.append_nil, ih]
    · rw [List.filter_cons_of_pos (by simpa using hid), newAfter, newAfter, ih]

theorem teamLogins_withEmptyTeam (c : GithubClient) (t : Int)
    (h : (c.ListTeamMembers t).items = []) :
    ∀ id, teamLogins c id = teamLogins (withEmptyTeam c t) id := by
  intro id
  by_cases hid : id = t
  · subst hid
    simp [teamLogins, withEmptyTeam, h]
  · simp [teamLogins, withEmptyTeam, hid]

theorem memberCalls_append (a b : List Event) :
    memberCalls (a ++ b) = memberCalls a ++ memberCalls b := by
  induction a with
  | nil => rfl
  | cons x a ih => cases x <;> simp [memberCalls, ih]

theorem memberCalls_errEvents (e : Option String) : memberCalls (errEvents e) = [] := by
  cases e <;> rfl

theorem memberCalls_keyEvents (c : GithubClient) (L : List String) :
    memberCalls ((L.map (keyEvents c)).flatten) = [] := by
  induction L with
  | nil => rfl
  | cons x L ih =>
    simp [keyEvents, memberCalls, memberCalls_append, memberCalls_errEvents, ih]

theorem memberCalls_loopEvents (c : GithubClient) (ids : List Int) :
    ∀ seen, memberCalls (loopEvents c ids seen) = ids := by
  induction ids with
  | nil => intro seen; rfl
  | cons id ids ih =>
    intro seen
    simp [loopEvents, teamEvents, memberCalls, memberCalls_append, memberCalls_errEvents,
      memberCalls_keyEvents, ih]

theorem getTeamsIds_trace (c : GithubClient) (org F : String) (tr : List Event) :
    (getTeamsIds c org F tr).2
      = tr ++ (Event.listTeams org :: errEvents (c.ListTeams org).err) := by
  simp [getTeamsIds, printErr_eq, List.append_assoc]

theorem getUsers_trace (net : Network) (token org F : String) (tr : List Event) :
    (getUsers net token org F tr).2
      = tr ++ (Event.listTeams org :: errEvents ((net token).ListTeams org).err
          ++ loopEvents (net token) (getTeamsIds (net token) org F tr).1 []) := by
  rw [getUsers_eq_loop, getUsersLoop_trace, getTeamsIds_trace]
  simp [List.append_assoc]

/-- Claim C6: when the member listing of team `t` fails (an error and no
members), `getUsers` does not abort: its users are those of the run in which
that listing succeeds with an empty member list, they are the users contributed
by the other selected teams, and the member listing is still requested for
every selected team, in order. -/
theorem getUsers_member_listing_failure :
    ∀ (net : Network) (token org F : String) (tr : List Event) (t : Int) (e : String),
      (net token).ListTeamMembers t = ⟨[], some e⟩ →
      (getUsers net token org F tr).1
          = (getUsers (fun _ => withEmptyTeam (net token) t) token org F tr).1
        ∧ (getUsers net token org F tr).1
          = (getUsersLoop (net token)
              ((getTeamsIds (net token) org F tr).1.filter (fun id => decide (id ≠ t)))
              [] []).1
        ∧ memberCalls (getUsers net token org F tr).2
          = memberCalls tr ++ (getTeamsIds (net token) org F tr).1 := by
  intro net token org F tr t e h
  have hitems : ((net token).ListTeamMembers t).items = [] := by rw [h]
  have hlog : teamLogins (net token) t = [] := by simp [teamLogins, hitems]
  refine ⟨?_, ?_, ?_⟩
  · rw [getUsers_eq_loop, getUsers_eq_loop, getUsersLoop_users_general,
      getUsersLoop_users_general,
      newAfter_congr _ _ (teamLogins_withEmptyTeam (net token) t hitems)]
    rfl
  · rw [getUsers_eq_loop, getUsersLoop_users_general, getUsersLoop_users_general,
      newAfter_filter (net token) t hlog]
  · rw [getUsers_trace]
    simp [memberCalls_append, memberCalls, memberCalls_errEvents, memberCalls_loopEvents]

/-- Witness for `getUsers_member_listing_failure`: three teams, the member
listing of team 2 fails, and the users of teams 1 and 3 are returned. -/
theorem getUsers_member_listing_failure_witness :
    ((fun _ => failingClient : Network) "tok").ListTeamMembers 2
        = ⟨[], some "connection reset"⟩
    ∧ ((getUsers (fun _ => failingClient) "tok" "org" "" []).1
          = (getUsers (fun _ => withEmptyTeam ((fun _ => failingClient : Network) "tok") 2)
              "tok" "org" "" []).1
        ∧ (getUsers (fun _ => failingClient) "tok" "org" "" []).1
          = (getUsersLoop ((fun _ => failingClient : Network) "tok")
              ((getTeamsIds ((fun _ => failingClient : Network) "tok") "org" "" []).1.filter
                (fun id => decide (id ≠ 2)))
              [] []).1
        ∧ memberCalls (getUsers (fun _ => failingClient) "tok" "org" "" []).2
          = memberCalls []
              ++ (getTeamsIds ((fun _ => failingClient : Network) "tok") "org" "" []).1)
    ∧ (getUsers (fun _ => failingClient) "tok" "org" "" []).1
        = [⟨"alice", ["ssh-rsa AAA..."]⟩, ⟨"bob", ["ssh-rsa CCC..."]⟩] :=
  ⟨rfl,
   getUsers_member_listing_failure (fun _ => failingClient) "tok" "org" "" [] 2
     "connection reset" rfl,
   by decide⟩

/-! ## Aggregation: key-listing calls -/

theorem listKeys_not_mem_errEvents (e : Option String) (u : String) :
    Event.listKeys u ∉ errEvents e := by
  cases e <;> simp [errEvents, printErr]

theorem listKeys_mem_keyEvents (c : GithubClient) (L : List String) (u : String)
    (h : Event.listKeys u ∈ (L.map (keyEvents c)).flatten) : u ∈ L := by
  induction L with
  | nil => simp at h
  | cons x L ih =>
    rw [List.map_cons, List.flatten_cons, List.mem_append] at h
    rcases h with h | h
    · rw [keyEvents, List.mem_cons] at h
      rcases h with h | h
      · cases h
        exact List.mem_cons_self _ _
      · exact absurd h (listKeys_not_mem_errEvents _ _)
    · exact List.mem_cons_of_mem _ (ih h)

theorem listKeys_mem_loopEvents (c : GithubClient) (u : String) (ids : List Int) :
    ∀ seen, Event.listKeys u ∈ loopEvents c ids seen →
      u ∉ seen ∧ ∃ id ∈ ids, u ∈ teamLogins c id := by
  induction ids with
  | nil => intro seen h; simp [loopEvents] at h
  | cons id ids ih =>
    intro seen h
    rw [loopEvents, List.mem_append] at h
    rcases h with h | h
    · rw [teamEvents, List.cons_append, List.mem_cons, List.mem_append] at h
      rcases h with h | h | h
      · cases h
      · exact absurd h (listKeys_not_mem_errEvents _ _)
      · have hu := listKeys_mem_keyEvents c _ u h
        rw [newLogins, List.mem_filter] at hu
        exact ⟨by simpa using hu.2, id, List.mem_cons_self _ _, hu.1⟩
    · obtain ⟨h1, id2, hid2, h2⟩ := ih _ h
      exact ⟨fun hs => h1 (List.mem_append_left _ hs), id2, List.mem_cons_of_mem _ hid2, h2⟩

theorem mem_seenAfter (c : GithubClient) (x : String) (ids : List Int) :
    ∀ seen, x ∈ seenAfter c ids seen → x ∈ seen ∨ ∃ id ∈ ids, x ∈ teamLogins c id := by
  induction ids with
  | nil => intro seen h; exact Or.inl h
  | cons id ids ih =>
    intro seen h
    rcases ih _ h with h1 | ⟨id2, hid2, h2⟩
    · rcases List.mem_append.1 h1 with h1 | h1
      · exact Or.inl h1
      · rw [newLogins, List.mem_filter] at h1
        exact Or.inr ⟨id, List.mem_cons_self _ _, h1.1⟩
    · exact Or.inr ⟨id2, List.mem_cons_of_mem _ hid2, h2⟩

theorem loopEvents_append (c : GithubClient) (ids1 ids2 : List Int) :
    ∀ seen, loopEvents c (ids1 ++ ids2) seen
      = loopEvents c ids1 seen ++ loopEvents c ids2 (seenAfter c ids1 seen) := by
  induction ids1 with
  | nil => intro seen; simp [loopEvents, seenAfter]
  | cons id ids1 ih =>
    intro seen
    simp [loopEvents, seenAfter, ih, List.append_assoc]

theorem exists_first_of_exists {α : Type} (P : α → Prop) (l : List α) :
    (∃ x ∈ l, P x) → ∃ l1 x l2, l = l1 ++ x :: l2 ∧ (∀ y ∈ l1, ¬ P y) ∧ P x := by
  classical
  induction l with
  | nil => rintro ⟨x, hx, _⟩; simp at hx
  | cons y l ih =>
    intro h
    by_cases hy : P y
    · exact ⟨[], y, l, rfl, by simp, hy⟩
    · have h2 : ∃ x ∈ l, P x := by
        obtain ⟨x, hx, hpx⟩ := h
        rcases List.mem_cons.1 hx with rfl | hx
        · exact absurd hpx hy
        · exact ⟨x, hx, hpx⟩
      obtain ⟨l1, x, l2, hl, hl1, hx⟩ := ih h2
      refine ⟨y :: l1, x, l2, by rw [hl]; rfl, ?_, hx⟩
      intro z hz
      rcases List.mem_cons.1 hz with rfl | hz
      · exact hy
      · exact hl1 z hz

theorem split_of_mem_count_le_one (u : String) (L : List String) (hu : u ∈ L)
    (hc : L.count u ≤ 1) : ∃ p q, L = p ++ u :: q ∧ u ∉ p ∧ u ∉ q := by
  obtain ⟨p, q, hpq⟩ := List.append_of_mem hu
  refine ⟨p, q, hpq, ?_, ?_⟩
  · intro hp
    have h1 : 0 < p.count u := List.count_pos_iff.2 hp
    rw [hpq, List.count_append, List.count_cons_self] at hc
    omega
  · intro hq
    have h1 : 0 < q.count u := List.count_pos_iff.2 hq
    rw [hpq, List.count_append, List.count_cons_self] at hc
    omega

/-- The key request for `u` happens once, while the first team that lists `u`
is processed, when that team lists `u` once. -/
theorem listKeys_once_at_first_team :
    ∀ (net : Network) (token org F : String) (tr : List Event)
      (ids1 ids2 : List Int) (t : Int) (u : String),
      (getTeamsIds (net token) org F tr).1 = ids1 ++ t :: ids2 →
      (∀ id ∈ ids1, u ∉ teamLogins (net token) id) →
      u ∈ teamLogins (net token) t →
      (teamLogins (net token) t).count u ≤ 1 →
      ∃ a b d : List Event,
        (getUsers net token org F tr).2
            = tr ++ (a ++ Event.listTeamMembers t :: (b ++ Event.listKeys u :: d))
          ∧ Event.listKeys u ∉ a ∧ Event.listKeys u ∉ b ∧ Event.listKeys u ∉ d
          ∧ memberCalls a = ids1 ∧ memberCalls b = [] ∧ memberCalls d = ids2 := by
  intro net token org F tr ids1 ids2 t u hids h1 ht hcount
  obtain ⟨p, q, hpq, hup, huq⟩ := split_of_mem_count_le_one u _ ht hcount
  have hs1 : u ∉ seenAfter (net token) ids1 [] := by
    intro hmem
    rcases mem_seenAfter _ _ _ _ hmem with h | ⟨id, hid, h⟩
    · simp at h
    · exact h1 id hid h
  have hnew : newLogins (net token) (seenAfter (net token) ids1 []) t
      = p.filter (fun l => decide (l ∉ seenAfter (net token) ids1 []))
        ++ u :: q.filter (fun l => decide (l ∉ seenAfter (net token) ids1 [])) := by
    rw [newLogins, hpq, List.filter_append, List.filter_cons_of_pos (by simpa using hs1)]
  refine ⟨Event.listTeams org :: errEvents ((net token).ListTeams org).err
            ++ loopEvents (net token) ids1 [],
          errEvents ((net token).ListTeamMembers t).err
            ++ ((p.filter (fun l => decide (l ∉ seenAfter (net token) ids1 []))).map
                (keyEvents (net token))).flatten,
          errEvents ((net token).ListKeys u).err
            ++ (((q.filter (fun l => decide (l ∉ seenAfter (net token) ids1 []))).map
                (keyEvents (net token))).flatten
              ++ loopEvents (net token) ids2
                  (seenAfter (net token) ids1 []
                    ++ newLogins (net token) (seenAfter (net token) ids1 []) t)),
          ?_, ?_, ?_, ?_, ?_, ?_, ?_⟩
  · rw [getUsers_trace, hids, loopEvents_append, loopEvents, teamEvents, hnew]
    simp [keyEvents, List.append_assoc]
  · intro hmem
    rw [List.cons_append, List.mem_cons, List.mem_append] at hmem
    rcases hmem with h | h | h
    · cases h
    · exact listKeys_not_mem_errEvents _ _ h
    · obtain ⟨_, id, hid, hu⟩ := listKeys_mem_loopEvents _ _ _ _ h
      exact h1 id hid hu
  · intro hmem
    rcases List.mem_append.1 hmem with h | h
    · exact listKeys_not_mem_errEvents _ _ h
    · exact hup (List.mem_of_mem_filter (listKeys_mem_keyEvents _ _ _ h))
  · intro hmem
    rcases List.mem_append.1 hmem with h | h
    · exact listKeys_not_mem_errEvents _ _ h
    · rcases List.mem_append.1 h with h | h
      · exact huq (List.mem_of_mem_filter (listKeys_mem_keyEvents _ _ _ h))
      · obtain ⟨hns, _⟩ := listKeys_mem_loopEvents _ _ _ _ h
        apply hns
        rw [hnew]
        simp
  · simp [memberCalls, memberCalls_append, memberCalls_errEvents, memberCalls_loopEvents]
  · simp [memberCalls_append, memberCalls_errEvents, memberCalls_keyEvents]
  · simp [memberCalls_append, memberCalls_errEvents, memberCalls_keyEvents,
      memberCalls_loopEvents]

/-- Claim C8: when the login `u` is in the member list of some selected team and
at most once in each member list, the run of `getUsers` requests the keys of `u`
exactly once, at the first team `t` of the sequence whose member list holds `u`:
the events of the run are the requests for the teams before `t` (none of which
lists `u`, no key request for `u`), the member listing of `t`, events without
member listing and without key request for `u`, the key request for `u`, and
then the remaining events, which hold the member listings of the later teams
and no key request for `u`. -/
theorem getUsers_lists_keys_once :
    ∀ (net : Network) (token org F : String) (tr : List Event) (u : String),
      (∀ id ∈ (getTeamsIds (net token) org F tr).1,
        (teamLogins (net token) id).count u ≤ 1) →
      (∃ id ∈ (getTeamsIds (net token) org F tr).1, u ∈ teamLogins (net token) id) →
      ∃ (ids1 ids2 : List Int) (t : Int) (a b d : List Event),
        (getTeamsIds (net token) org F tr).1 = ids1 ++ t :: ids2
          ∧ (∀ id ∈ ids1, u ∉ teamLogins (net token) id)
          ∧ u ∈ teamLogins (net token) t
          ∧ (getUsers net token org F tr).2
            = tr ++ (a ++ Event.listTeamMembers t :: (b ++ Event.listKeys u :: d))
          ∧ Event.listKeys u ∉ a ∧ Event.listKeys u ∉ b ∧ Event.listKeys u ∉ d
          ∧ memberCalls a = ids1 ∧ memberCalls b = [] ∧ memberCalls d = ids2
          ∧ (a ++ Event.listTeamMembers t :: (b ++ Event.listKeys u :: d)).count
              (Event.listKeys u) = 1 := by
  intro net token org F tr u hcount hex
  obtain ⟨ids1, t, ids2, hids, h1, ht⟩ :=
    exists_first_of_exists (fun id => u ∈ teamLogins (net token) id) _ hex
  have hct : (teamLogins (net token) t).count u ≤ 1 :=
    hcount t (by rw [hids]; simp)
  obtain ⟨a, b, d, htr, ha, hb, hd, hma, hmb, hmd⟩ :=
    listKeys_once_at_first_team net token org F tr ids1 ids2 t u hids h1 ht hct
  refine ⟨ids1, ids2, t, a, b, d, hids, h1, ht, htr, ha, hb, hd, hma, hmb, hmd, ?_⟩
  have hne : (Event.listTeamMembers t == Event.listKeys u) = false := by
    simp
  rw [List.count_append, List.count_cons, List.count_append, List.count_cons_self,
    List.count_eq_zero_of_not_mem ha, List.count_eq_zero_of_not_mem hb,
    List.count_eq_zero_of_not_mem hd, hne]
  simp

/-- Witness for `getUsers_lists_keys_once`: team 1 lists `x, x, u` and team 2
lists `u`; the keys of `u` are requested once, while team 1 is processed. -/
theorem getUsers_lists_keys_once_witness :
    ((∀ id ∈ (getTeamsIds ((fun _ => repeatClient : Network) "tok") "org" "" []).1,
        (teamLogins ((fun _ => repeatClient : Network) "tok") id).count "u" ≤ 1)
      ∧ (∃ id ∈ (getTeamsIds ((fun _ => repeatClient : Network) "tok") "org" "" []).1,
        "u" ∈ teamLogins ((fun _ => repeatClient : Network) "tok") id))
    ∧ (∃ (ids1 ids2 : List Int) (t : Int) (a b d : List Event),
        (getTeamsIds ((fun _ => repeatClient : Network) "tok") "org" "" []).1
            = ids1 ++ t :: ids2
          ∧ (∀ id ∈ ids1, "u" ∉ teamLogins ((fun _ => repeatClient : Network) "tok") id)
          ∧ "u" ∈ teamLogins ((fun _ => repeatClient : Network) "tok") t
          ∧ (getUsers (fun _ => repeatClient) "tok" "org" "" []).2
            = [] ++ (a ++ Event.listTeamMembers t :: (b ++ Event.listKeys "u" :: d))
          ∧ Event.listKeys "u" ∉ a ∧ Event.listKeys "u" ∉ b ∧ Event.listKeys "u" ∉ d
          ∧ memberCalls a = ids1 ∧ memberCalls b = [] ∧ memberCalls d = ids2
          ∧ (a ++ Event.listTeamMembers t :: (b ++ Event.listKeys "u" :: d)).count
              (Event.listKeys "u") = 1)
    ∧ (getUsers (fun _ => repeatClient) "tok" "org" "" []).2
        = [Event.listTeams "org", Event.listTeamMembers 1, Event.listKeys "x",
           Event.listKeys "x", Event.listKeys "u", Event.listTeamMembers 2] :=
  ⟨⟨by decide, by decide⟩,
   getUsers_lists_keys_once (fun _ => repeatClient) "tok" "org" "" [] "u"
     (by decide) (by decide),
   by decide⟩

end GithubSshKeys
